import Mathlib

/-!
# Verification of the tag-tactician analytical core

A shallow embedding of the relatedness scorer (`TagIndexer.computeRelatedNotes`
and its helpers, `src/relatedView/TagIndexer.ts`) and of the tag-hierarchy
builder / filter / sorter (`TagNavigationRenderer`,
`src/navByTag/TagNavigationRenderer.ts`), together with proofs of the
spec-level properties of those functions.

Modelling conventions:
* JavaScript `Set` objects (insertion ordered, duplicate free) are modelled as
  duplicate-free `List`s with an `add` operation that appends only when the
  element is absent.
* JavaScript objects used as string-keyed maps (`TagHierarchy`) are modelled as
  association lists in key insertion order; assigning to a fresh key appends.
* Floating point scores are modelled as exact rationals `ℚ`; the score
  arithmetic performed by the code (sums, products and one division by a
  string length) is exact in `ℚ`.
* The host (`app.vault`, `app.metadataCache`) is modelled by a list of files
  and a partial map from paths to metadata snapshots.
-/

namespace TagTactician

/-- File timestamps, from `TFile.stat` (`ctime` / `mtime`). -/
structure FileStat where
  ctime : Int
  mtime : Int
deriving DecidableEq, Repr

/-- A markdown file as seen by the code: its vault path, its basename
(title), the path of its parent folder (`file.parent.path`, which is `"/"`
for files at the vault root), and its stat block. -/
structure TFile where
  path : String
  basename : String
  parentPath : String
  stat : FileStat
deriving DecidableEq, Repr

/-- An entry of a frontmatter `tags` array: the code keeps only entries for
which `typeof tag === "string"` holds and drops everything else. -/
inductive FmEntry where
  | str (s : String)
  | nonString
deriving DecidableEq, Repr

/-- The `frontmatter.tags` field of a metadata snapshot: absent/falsy, an
array of entries, or a single delimited string. -/
inductive FmTags where
  | missing
  | arr (entries : List FmEntry)
  | str (s : String)
deriving DecidableEq, Repr

/-- A metadata snapshot (`CachedMetadata`): the inline tag markers
(`cache.tags`, each `t.tag`, possibly still carrying a leading `#`), the
frontmatter tags field, and the link targets (`cache.links`, each `l.link`). -/
structure CachedMetadata where
  tags : List String
  frontmatterTags : FmTags
  links : List String
deriving DecidableEq, Repr

/-! Kernel-computable counterparts of the JS string primitives the code
uses. Lean core's `String.split` / `String.toLower` / `String.startsWith`
are position-based and well-founded recursive, so they do not reduce inside
the kernel; the code's string handling is character-list based anyway, so we
model the JS operations directly on the character data. -/

/-- JS `String.prototype.split` on a character class: split the character
list at every separator (`"a//b" ↦ ["a","","b"]`, `"" ↦ [""]`). -/
def splitChars (p : Char → Bool) : List Char → List (List Char)
  | [] => [[]]
  | c :: cs =>
    if p c then [] :: splitChars p cs
    else
      match splitChars p cs with
      | [] => [[c]]
      | r :: rs => (c :: r) :: rs

/-- JS `s.split(sep)` for a one-character class separator. -/
def jsSplit (s : String) (p : Char → Bool) : List String :=
  (splitChars p s.data).map String.mk

/-- JS `s.toLowerCase()` (ASCII letters, as `Char.toLower`). -/
def jsToLower (s : String) : String :=
  String.mk (s.data.map Char.toLower)

/-- JS `s.startsWith(pre)`. -/
def jsStartsWith (s pre : String) : Bool :=
  pre.data.isPrefixOf s.data

/-- JS `s.substring(n)`: drop the first `n` characters. -/
def jsDrop (s : String) (n : Nat) : String :=
  String.mk (s.data.drop n)

/-- `Set.add` on a JS string set: append iff absent. -/
def setAdd (s : List String) (x : String) : List String :=
  if x ∈ s then s else s ++ [x]

/-- `Set.add` on a JS set of files: append iff absent. -/
def fileSetAdd (s : List TFile) (f : TFile) : List TFile :=
  if f ∈ s then s else s ++ [f]

/-- `gatherTagsFromCache` (`TagIndexer.ts`): collect inline tags with the
leading `#` stripped, then merge the frontmatter tags — an array keeps only
its string entries, a (non-empty) delimited string is split on runs of commas
and spaces with empty fragments dropped. -/
def gatherTagsFromCache (cache : CachedMetadata) : List String :=
  let tags := cache.tags.foldl
    (fun acc t =>
      let rawTag := if jsStartsWith t "#" then jsDrop t 1 else t
      setAdd acc rawTag) []
  match cache.frontmatterTags with
  | .missing => tags
  | .arr entries =>
      entries.foldl
        (fun acc e =>
          match e with
          | .str tag => setAdd acc tag
          | .nonString => acc) tags
  | .str s =>
      if s = "" then tags
      else (jsSplit s (fun c => c = ',' || c = ' ')).foldl
        (fun acc t => if t = "" then acc else setAdd acc t) tags

/-- `expandTagIntoPrefixes` (`TagIndexer.ts`): split the tag on `"/"` and
return the joins of the first `i` segments for `i = 1 .. segments.length`. -/
def expandTagIntoPrefixes (fullTag : String) : List String :=
  let segments := jsSplit fullTag (fun c => c = '/')
  (List.range segments.length).map
    (fun i => String.intercalate "/" (segments.take (i + 1)))

/-- `gatherAllPrefixSegmentsForNote` (`TagIndexer.ts`): the set union of the
prefix chains of all of the note's tags, built in insertion order. -/
def gatherAllPrefixSegmentsForNote (noteTags : List String) : List String :=
  noteTags.foldl
    (fun allSegments tag =>
      (expandTagIntoPrefixes tag).foldl setAdd allSegments) []

/-- `levenshteinDistance` (`TagIndexer.ts`): the source fills the classic
dynamic-programming table with `dp[i][0] = i`, `dp[0][j] = j` and
`dp[i][j] = min(dp[i-1][j]+1, dp[i][j-1]+1, dp[i-1][j-1]+cost)`; this is the
recurrence that the table evaluates, stated on the character lists. -/
def levenshteinDistance : List Char → List Char → Nat
  | [], str2 => str2.length
  | c1 :: s1, [] => (c1 :: s1).length
  | c1 :: s1, c2 :: s2 =>
      let cost := if c1 = c2 then 0 else 1
      min (levenshteinDistance s1 (c2 :: s2) + 1)
        (min (levenshteinDistance (c1 :: s1) s2 + 1)
          (levenshteinDistance s1 s2 + cost))
termination_by a b => a.length + b.length
decreasing_by all_goals (simp <;> omega)

/-- `levenshteinSimilarity` (`TagIndexer.ts`): order the arguments so
`longer` is the longer string, return `1.0` when it is empty and
`(longerLength − distance(longer, shorter)) / longerLength` otherwise. -/
def levenshteinSimilarity (s1 s2 : String) : ℚ :=
  let longer := if s1.length < s2.length then s2 else s1
  let shorter := if s1.length < s2.length then s1 else s2
  let longerLength := longer.length
  if longerLength = 0 then 1
  else ((longerLength : ℚ) - (levenshteinDistance longer.toList shorter.toList : ℚ))
        / (longerLength : ℚ)

/-- One entry of the result of `computeRelatedNotes`: `{notePath, score}`. -/
structure ScoreEntry where
  notePath : String
  score : ℚ
deriving DecidableEq, Repr

/-- The four relatedness weights read from `plugin.settings`
(`PluginSettings.ts`; each defaults to `1.0`). -/
structure Settings where
  weightTagSimilarity : ℚ
  weightTitleSimilarity : ℚ
  weightPathSimilarity : ℚ
  weightLinkInterconnections : ℚ
deriving DecidableEq, Repr

/-- The host vault: the list returned by `vault.getMarkdownFiles()`. -/
structure Vault where
  files : List TFile
deriving Repr

/-- The host metadata cache: `metadataCache.getFileCache` keyed by path,
`none` when no snapshot is available. -/
abbrev MetadataCache := String → Option CachedMetadata

/-- The body of the candidate loop of `computeRelatedNotes`: prefix-overlap
count, title similarity of the lowercased basenames, path similarity guarded
by both files being outside the vault root, the (0/1/2)-valued link score,
and the weighted total. -/
def candidateScore (settings : Settings) (file : TFile) (currCache : CachedMetadata)
    (currentNoteSegments : List String) (currentTitle : String)
    (candidateFile : TFile) (candCache : CachedMetadata) : ℚ :=
  let candTags := gatherTagsFromCache candCache
  let candidateSegments := gatherAllPrefixSegmentsForNote candTags
  let prefixOverlapScore : Nat :=
    candidateSegments.countP (fun seg => currentNoteSegments.contains seg)
  let candidateTitle := jsToLower candidateFile.basename
  let titleSimScore := levenshteinSimilarity currentTitle candidateTitle
  let pathSimScore : ℚ :=
    if candidateFile.parentPath ≠ "/" ∧ file.parentPath ≠ "/" then
      levenshteinSimilarity file.path candidateFile.path
    else 0
  let linkScore : Nat :=
    (if candCache.links.contains file.basename then 1 else 0)
      + (if currCache.links.contains candidateFile.basename then 1 else 0)
  0
    + settings.weightTagSimilarity * prefixOverlapScore
    + settings.weightTitleSimilarity * titleSimScore
    + settings.weightPathSimilarity * pathSimScore
    + settings.weightLinkInterconnections * linkScore

/-- `TagIndexer.computeRelatedNotes`: resolve the focus path to a file
(empty result when it is not a markdown file of the vault), fetch its
snapshot (empty result when unavailable), then scan every markdown file,
skipping the focus itself and candidates without a snapshot, pushing
`{path, totalScore}` when `totalScore > 0`, and finally sorting by
descending score (`(a, b) => b.score - a.score`, modelled as a stable sort
by `b.score ≤ a.score`). -/
def computeRelatedNotes (vault : Vault) (mc : MetadataCache) (settings : Settings)
    (currentNotePath : String) : List ScoreEntry :=
  match vault.files.find? (fun f => f.path == currentNotePath) with
  | none => []
  | some file =>
    match mc file.path with
    | none => []
    | some currCache =>
      let currFullTags := gatherTagsFromCache currCache
      let currentNoteSegments := gatherAllPrefixSegmentsForNote currFullTags
      let currentTitle := jsToLower file.basename
      let results := vault.files.filterMap (fun candidateFile =>
        if candidateFile.path = currentNotePath then none
        else
          match mc candidateFile.path with
          | none => none
          | some candCache =>
            let totalScore := candidateScore settings file currCache
              currentNoteSegments currentTitle candidateFile candCache
            if 0 < totalScore then
              some ⟨candidateFile.path, totalScore⟩
            else none)
      results.mergeSort (fun a b => decide (b.score ≤ a.score))

/-! ## The tag hierarchy (`TagNavigationRenderer.ts`) -/

/-- A node of the tag hierarchy: a set of direct files and a string-keyed
child map, modelled as an insertion-ordered association list. -/
inductive TagNode where
  | mk (files : List TFile) (children : List (String × TagNode))

/-- The `TagHierarchy` interface: a string-keyed map of nodes. -/
abbrev TagHierarchy := List (String × TagNode)

/-- Direct files of a node. -/
def TagNode.files : TagNode → List TFile
  | .mk fs _ => fs

/-- Child map of a node. -/
def TagNode.children : TagNode → TagHierarchy
  | .mk _ cs => cs

/-- The JS idiom `if (!h[key]) h[key] = {files: ∅, children: {}}; f(h[key])`
on an insertion-ordered object: modify the entry in place when the key
exists, otherwise append a fresh empty node (new keys go last). -/
def modifyKey (h : TagHierarchy) (key : String) (f : TagNode → TagNode) : TagHierarchy :=
  match h with
  | [] => [(key, f (TagNode.mk [] []))]
  | (k, n) :: t => if k = key then (k, f n) :: t else (k, n) :: modifyKey t key f

/-- `TagNavigationRenderer.addToHierarchy`: walk `[head, ...rest]`, creating
the node for `head` if needed; add the file at the final segment, otherwise
recurse into the children of `head`. -/
def addToHierarchy (hierarchy : TagHierarchy) (segments : List String) (file : TFile) :
    TagHierarchy :=
  match segments with
  | [] => hierarchy
  | [head] =>
      modifyKey hierarchy head (fun node => TagNode.mk (fileSetAdd node.files file) node.children)
  | head :: rest =>
      modifyKey hierarchy head (fun node => TagNode.mk node.files (addToHierarchy node.children rest file))

/-- `TagNavigationRenderer.buildTagHierarchy`: for every markdown file, a
file without a metadata snapshot or with an empty gathered tag set joins the
root-level `"untagged"` bucket; otherwise the file is inserted once per tag
at the leaf of the tag's `"/"` path. -/
def buildTagHierarchy (vault : Vault) (mc : MetadataCache) : TagHierarchy :=
  vault.files.foldl
    (fun hierarchy file =>
      match mc file.path with
      | some fileCache =>
        let tags := gatherTagsFromCache fileCache
        if tags = [] then
          modifyKey hierarchy "untagged"
            (fun node => TagNode.mk (fileSetAdd node.files file) node.children)
        else
          tags.foldl
            (fun h tag => addToHierarchy h (jsSplit tag (fun c => c = '/')) file)
            hierarchy
      | none =>
        modifyKey hierarchy "untagged"
          (fun node => TagNode.mk (fileSetAdd node.files file) node.children))
    []

/-- JS `String.prototype.includes`: substring containment. -/
def jsIncludes (hay needle : String) : Bool :=
  decide (needle.toList <:+: hay.toList)

/-- The `TagFilterMode` enum. -/
inductive TagFilterMode where
  | TagsAndFiles
  | TagsOnly
  | FilesOnly
deriving DecidableEq, Repr

/-- `TagNavigationRenderer.filterHierarchy`: an empty query returns the
hierarchy unchanged; otherwise each entry is kept or dropped according to the
filter mode, with the query matched case-insensitively against tag names and
file basenames, `isAncestorMatched` propagated downward, and children
filtered recursively. -/
def filterHierarchy (filterMode : TagFilterMode) (hierarchy : TagHierarchy)
    (filterQuery : String) (isAncestorMatched : Bool) : TagHierarchy :=
  if filterQuery = "" then hierarchy
  else
    match hierarchy with
    | [] => []
    | (key, TagNode.mk files children) :: t =>
      let normalizedFilterQuery := jsToLower filterQuery
      let actualTagNameMatchesQuery := jsIncludes (jsToLower key) normalizedFilterQuery
      let newIsAncestorMatched := isAncestorMatched || actualTagNameMatchesQuery
      let filteredChildren := filterHierarchy filterMode children filterQuery newIsAncestorMatched
      let matchingFiles :=
        files.filter (fun file => jsIncludes (jsToLower file.basename) normalizedFilterQuery)
      let rest := filterHierarchy filterMode t filterQuery isAncestorMatched
      match filterMode with
      | .TagsAndFiles =>
        if actualTagNameMatchesQuery || isAncestorMatched
            || !matchingFiles.isEmpty || !filteredChildren.isEmpty then
          (key, TagNode.mk
            (if actualTagNameMatchesQuery || isAncestorMatched then files else matchingFiles)
            filteredChildren) :: rest
        else rest
      | .TagsOnly =>
        if actualTagNameMatchesQuery || isAncestorMatched || !filteredChildren.isEmpty then
          (key, TagNode.mk files filteredChildren) :: rest
        else rest
      | .FilesOnly =>
        if !matchingFiles.isEmpty || !filteredChildren.isEmpty then
          (key, TagNode.mk matchingFiles filteredChildren) :: rest
        else if (actualTagNameMatchesQuery || isAncestorMatched)
            && filteredChildren.isEmpty && matchingFiles.isEmpty then
          (key, TagNode.mk [] filteredChildren) :: rest
        else rest
termination_by sizeOf hierarchy
decreasing_by all_goals (simp <;> omega)

/-- The `TagNavSortMode` union type (`PluginSettings.ts`). -/
inductive TagNavSortMode where
  | alphabeticallyDescending
  | fileCountDescending
  | createdTimeDescending
  | createdTimeAscending
  | modifiedTimeDescending
  | modifiedTimeAscending
deriving DecidableEq, Repr

/-- `a.localeCompare(b, undefined, {sensitivity: "base"})`, modelled as the
three-way comparison of the lowercased strings. -/
def localeCompareBase (a b : String) : Int :=
  if jsToLower a < jsToLower b then -1 else if jsToLower b < jsToLower a then 1 else 0

/-- `Math.max(...)` over a list, `0` when empty (the callers guard the
empty case themselves). -/
def jsMax (l : List Int) : Int :=
  match l with
  | [] => 0
  | x :: xs => xs.foldl max x

/-- `Math.min(...)` over a list, `0` when empty. -/
def jsMin (l : List Int) : Int :=
  match l with
  | [] => 0
  | x :: xs => xs.foldl min x

mutual

/-- `TagNavigationRenderer.getTotalFileCountForNode`: direct files plus the
recursive total over all children. -/
def getTotalFileCountForNode : TagNode → Nat
  | .mk files children => files.length + getTotalFileCountForChildren children

/-- The loop `for (const child of Object.values(children))` summing the
recursive counts. -/
def getTotalFileCountForChildren : TagHierarchy → Nat
  | [] => 0
  | (_, n) :: t => getTotalFileCountForNode n + getTotalFileCountForChildren t

end

/-- The comparator passed to `sortedEntries.sort(...)` for each sort mode:
a negative result puts `a` first. -/
def sortCmp (mode : TagNavSortMode) (a b : String × TagNode) : Int :=
  match mode with
  | .alphabeticallyDescending => localeCompareBase a.1 b.1
  | .fileCountDescending =>
    let countA : Int := getTotalFileCountForNode a.2
    let countB : Int := getTotalFileCountForNode b.2
    if countB = countA then localeCompareBase a.1 b.1
    else countB - countA
  | .createdTimeDescending | .createdTimeAscending =>
    let filesA := a.2.files
    let filesB := b.2.files
    if filesA.isEmpty && filesB.isEmpty then localeCompareBase a.1 b.1
    else
      let getNewestCtime := fun (files : List TFile) =>
        if files.isEmpty then (0 : Int)
        else if mode = .createdTimeDescending then jsMax (files.map (fun f => f.stat.ctime))
        else jsMin (files.map (fun f => f.stat.ctime))
      let ctimeA := getNewestCtime filesA
      let ctimeB := getNewestCtime filesB
      if ctimeA = ctimeB then localeCompareBase a.1 b.1
      else if mode = .createdTimeDescending then ctimeB - ctimeA
      else ctimeA - ctimeB
  | .modifiedTimeDescending | .modifiedTimeAscending =>
    let filesA := a.2.files
    let filesB := b.2.files
    if filesA.isEmpty && filesB.isEmpty then localeCompareBase a.1 b.1
    else
      let getNewestMtime := fun (files : List TFile) =>
        if files.isEmpty then (0 : Int)
        else if mode = .modifiedTimeDescending then jsMax (files.map (fun f => f.stat.mtime))
        else jsMin (files.map (fun f => f.stat.mtime))
      let mtimeA := getNewestMtime filesA
      let mtimeB := getNewestMtime filesB
      if mtimeA = mtimeB then localeCompareBase a.1 b.1
      else if mode = .modifiedTimeDescending then mtimeB - mtimeA
      else mtimeA - mtimeB

mutual

/-- `TagNavigationRenderer.sortHierarchy`: map every entry to the same key
with recursively sorted children, then stably sort the entries with the
mode's comparator (JS `sort` keeps `a` before `b` when the comparator is
`≤ 0`). -/
def sortHierarchy (hierarchy : TagHierarchy) (mode : TagNavSortMode) : TagHierarchy :=
  (sortChildren hierarchy mode).mergeSort (fun a b => decide (sortCmp mode a b ≤ 0))
termination_by (sizeOf hierarchy, 1)

/-- The `Object.entries(hierarchy).map` step of `sortHierarchy`: keep each
key and its files, sort the children recursively. -/
def sortChildren (hierarchy : TagHierarchy) (mode : TagNavSortMode) : TagHierarchy :=
  match hierarchy with
  | [] => []
  | (key, TagNode.mk files children) :: t =>
      (key, TagNode.mk files (sortHierarchy children mode)) :: sortChildren t mode
termination_by (sizeOf hierarchy, 0)
decreasing_by all_goals (simp; omega)

end

/-! ## Observation helpers (spec side) -/

/-- Look a key up in a hierarchy level. -/
def lookupKey (h : TagHierarchy) (key : String) : Option TagNode :=
  (h.find? (fun e => e.1 == key)).map (fun e => e.2)

/-- Follow a `"/"`-split tag path through the hierarchy to its node. -/
def nodeAtPath : TagHierarchy → List String → Option TagNode
  | _, [] => none
  | h, [k] => lookupKey h k
  | h, k :: rest =>
    match lookupKey h k with
    | none => none
    | some n => nodeAtPath n.children rest

mutual

/-- All files stored in a node or anywhere below it. -/
def nodeReachableFiles : TagNode → List TFile
  | .mk files children => files ++ hierarchyReachableFiles children

/-- All files stored anywhere in a hierarchy. -/
def hierarchyReachableFiles : TagHierarchy → List TFile
  | [] => []
  | (_, n) :: t => nodeReachableFiles n ++ hierarchyReachableFiles t

end

/-! ## Basic lemmas about the JS-set model -/

theorem mem_setAdd {x y : String} {s : List String} :
    x ∈ setAdd s y ↔ x ∈ s ∨ x = y := by
  simp only [setAdd]
  split <;> rename_i hy
  · constructor
    · exact Or.inl
    · rintro (hx | rfl) <;> [exact hx; exact hy]
  · simp

theorem mem_fileSetAdd {x y : TFile} {s : List TFile} :
    x ∈ fileSetAdd s y ↔ x ∈ s ∨ x = y := by
  simp only [fileSetAdd]
  split <;> rename_i hy
  · constructor
    · exact Or.inl
    · rintro (hx | rfl) <;> [exact hx; exact hy]
  · simp

theorem mem_foldl_setAdd (l : List String) (acc : List String) (x : String) :
    x ∈ l.foldl setAdd acc ↔ x ∈ acc ∨ x ∈ l := by
  induction l generalizing acc with
  | nil => simp
  | cons y t ih =>
    simp only [List.foldl_cons, ih, mem_setAdd, List.mem_cons]
    tauto

theorem mem_gatherAllPrefixSegmentsForNote {noteTags : List String} {s : String} :
    s ∈ gatherAllPrefixSegmentsForNote noteTags ↔
      ∃ tag ∈ noteTags, s ∈ expandTagIntoPrefixes tag := by
  have general : ∀ (l acc : List String),
      s ∈ l.foldl (fun allSegments tag =>
        (expandTagIntoPrefixes tag).foldl setAdd allSegments) acc ↔
        s ∈ acc ∨ ∃ tag ∈ l, s ∈ expandTagIntoPrefixes tag := by
    intro l
    induction l with
    | nil => simp
    | cons y t ih =>
      intro acc
      simp only [List.foldl_cons, ih, mem_foldl_setAdd, List.mem_cons]
      constructor
      · rintro ((h | h) | ⟨tag, ht, hs⟩)
        · exact Or.inl h
        · exact Or.inr ⟨y, Or.inl rfl, h⟩
        · exact Or.inr ⟨tag, Or.inr ht, hs⟩
      · rintro (h | ⟨tag, (rfl | ht), hs⟩)
        · exact Or.inl (Or.inl h)
        · exact Or.inl (Or.inr hs)
        · exact Or.inr ⟨tag, ht, hs⟩
  simpa using general noteTags []

/-! ## C4 : prefix expansion -/

theorem inits_eq_map_range_take {α : Type} (l : List α) :
    l.inits = (List.range (l.length + 1)).map (fun i => l.take i) := by
  apply List.ext_getElem
  · simp [List.length_inits]
  · intro i h1 h2
    simp [List.getElem_inits]

theorem expandTagIntoPrefixes_eq_inits (fullTag : String) :
    expandTagIntoPrefixes fullTag =
      ((jsSplit fullTag (fun c => c = '/')).inits.tail).map
        (fun p => String.intercalate "/" p) := by
  rw [inits_eq_map_range_take]
  simp only [expandTagIntoPrefixes]
  rw [List.range_succ_eq_map]
  simp [Function.comp_def]

/-- C4: `expandTagIntoPrefixes` returns exactly the root-first chain of
`"/"`-prefixes of the tag (the non-empty initial-segment lists of the split,
in order, re-joined with `"/"`, e.g. `a/b/c ↦ [a, a/b, a/b/c]`), and
`gatherAllPrefixSegmentsForNote` is the union of these chains: a segment is
in the result exactly when it is a prefix of some tag of the set, so every
ancestor prefix of every tag is present
(`gatherAllPrefixSegments({"a/b/c"}) = {"a","a/b","a/b/c"}`). -/
theorem expandPrefixes_and_gather_spec :
    (∀ fullTag : String,
      expandTagIntoPrefixes fullTag =
        ((jsSplit fullTag (fun c => c = '/')).inits.tail).map
          (fun p => String.intercalate "/" p))
    ∧ expandTagIntoPrefixes "a/b/c" = ["a", "a/b", "a/b/c"]
    ∧ (∀ (noteTags : List String) (s : String),
        s ∈ gatherAllPrefixSegmentsForNote noteTags ↔
          ∃ tag ∈ noteTags, s ∈ expandTagIntoPrefixes tag)
    ∧ gatherAllPrefixSegmentsForNote ["a/b/c"] = ["a", "a/b", "a/b/c"] := by
  refine ⟨expandTagIntoPrefixes_eq_inits, by decide, ?_, by decide⟩
  intro noteTags s
  exact mem_gatherAllPrefixSegmentsForNote

/-! ## C6 : the empty query is a no-op -/

/-- C6: for every filter mode, hierarchy and ancestor flag, filtering with
the empty query string returns the hierarchy unchanged. -/
theorem filterHierarchy_empty_query (mode : TagFilterMode) (hierarchy : TagHierarchy)
    (anc : Bool) : filterHierarchy mode hierarchy "" anc = hierarchy := by
  rw [filterHierarchy.eq_def]
  simp

/-! ## C10 : the sorter is a pure reordering -/

theorem sortChildren_eq_map (hierarchy : TagHierarchy) (mode : TagNavSortMode) :
    sortChildren hierarchy mode =
      hierarchy.map (fun e => (e.1, TagNode.mk e.2.files (sortHierarchy e.2.children mode))) := by
  induction hierarchy with
  | nil => rw [sortChildren]; rfl
  | cons e t ih =>
    obtain ⟨key, files, children⟩ := e
    rw [sortChildren, ih]
    rfl

/-- C10: `sortHierarchy` is a pure reordering — for every hierarchy and
sort mode, its entries are a permutation of the input entries, where each
entry keeps its key and its direct file set and has its children sorted
recursively; no node or document is added, removed or moved between nodes. -/
theorem sortHierarchy_perm (hierarchy : TagHierarchy) (mode : TagNavSortMode) :
    (sortHierarchy hierarchy mode).Perm
      (hierarchy.map (fun e => (e.1, TagNode.mk e.2.files (sortHierarchy e.2.children mode)))) := by
  rw [sortHierarchy, ← sortChildren_eq_map]
  exact List.mergeSort_perm _ _

/-! ## C2 : the focus is excluded and the result is sorted -/

/-- C2: for every vault, metadata cache, settings and focus path, the result
of `computeRelatedNotes` contains no entry for the focus path itself, and is
sorted non-increasing by score. -/
theorem computeRelatedNotes_no_self_and_sorted (vault : Vault) (mc : MetadataCache)
    (settings : Settings) (currentNotePath : String) :
    (∀ e ∈ computeRelatedNotes vault mc settings currentNotePath,
        e.notePath ≠ currentNotePath)
    ∧ (computeRelatedNotes vault mc settings currentNotePath).Sorted
        (fun a b => b.score ≤ a.score) := by
  unfold computeRelatedNotes
  split
  · simp [List.Sorted]
  · split
    · simp [List.Sorted]
    · constructor
      · intro e he
        rw [List.mem_mergeSort] at he
        obtain ⟨cand, _, hcand⟩ := List.mem_filterMap.mp he
        by_cases hp : cand.path = currentNotePath
        · simp [hp] at hcand
        · simp only [hp, if_false] at hcand
          split at hcand
          · exact absurd hcand (by simp)
          · split at hcand
            · simp only [Option.some.injEq] at hcand
              subst hcand
              exact hp
            · exact absurd hcand (by simp)
      · show List.Pairwise (fun (a b : ScoreEntry) => b.score ≤ a.score) _
        refine List.Pairwise.imp ?_ (List.sorted_mergeSort ?_ ?_ _)
        · intro a b h
          simpa using h
        · intro a b c hab hbc
          simp only [decide_eq_true_eq] at *
          exact le_trans hbc hab
        · intro a b
          simp only [Bool.or_eq_true, decide_eq_true_eq]
          exact le_total b.score a.score

/-! ## C1 : what the scorer returns per candidate -/

/-- Membership characterization of the scorer's output: once the focus file
and its snapshot resolve, an entry is returned exactly for the candidates
(other than the focus, with a snapshot available) whose weighted total score
is strictly positive, and it carries exactly that score. -/
theorem mem_computeRelatedNotes_iff (vault : Vault) (mc : MetadataCache)
    (settings : Settings) (currentNotePath : String) (file : TFile)
    (currCache : CachedMetadata)
    (hf : vault.files.find? (fun f => f.path == currentNotePath) = some file)
    (hc : mc file.path = some currCache) (e : ScoreEntry) :
    e ∈ computeRelatedNotes vault mc settings currentNotePath ↔
      ∃ cand ∈ vault.files, cand.path ≠ currentNotePath ∧
        ∃ candCache, mc cand.path = some candCache ∧
          0 < candidateScore settings file currCache
              (gatherAllPrefixSegmentsForNote (gatherTagsFromCache currCache))
              (jsToLower file.basename) cand candCache ∧
          e = ⟨cand.path, candidateScore settings file currCache
              (gatherAllPrefixSegmentsForNote (gatherTagsFromCache currCache))
              (jsToLower file.basename) cand candCache⟩ := by
  unfold computeRelatedNotes
  rw [hf]
  simp only [hc, List.mem_mergeSort, List.mem_filterMap]
  constructor
  · rintro ⟨cand, hmem, hcand⟩
    refine ⟨cand, hmem, ?_⟩
    by_cases hp : cand.path = currentNotePath
    · simp [hp] at hcand
    · simp only [hp, if_false] at hcand
      refine ⟨hp, ?_⟩
      cases hcc : mc cand.path with
      | none => rw [hcc] at hcand; exact absurd hcand (by simp)
      | some candCache =>
        rw [hcc] at hcand
        refine ⟨candCache, rfl, ?_⟩
        by_cases hpos : 0 < candidateScore settings file currCache
            (gatherAllPrefixSegmentsForNote (gatherTagsFromCache currCache))
            (jsToLower file.basename) cand candCache
        · simp only [hpos, if_true] at hcand
          injection hcand with h
          exact ⟨hpos, h.symm⟩
        · simp only [hpos, if_false] at hcand
          exact absurd hcand (by simp)
  · rintro ⟨cand, hmem, hp, candCache, hcc, hpos, rfl⟩
    refine ⟨cand, hmem, ?_⟩
    simp only [hp, if_false, hcc, hpos, if_true]

/-- C1 (amended): for every candidate other than the focus whose snapshot is
available, the scorer computes the weighted total
`w_tag·prefixOverlap + w_title·titleSim + w_path·pathSim + w_link·linkScore`
and includes the pair `{documentId, score}` exactly when that total is
strictly positive: a strict `score > 0` threshold is applied inside the
scorer, and zero-score candidates are omitted. -/
theorem computeRelatedNotes_entries (vault : Vault) (mc : MetadataCache)
    (settings : Settings) (currentNotePath : String) (file : TFile)
    (currCache : CachedMetadata)
    (hf : vault.files.find? (fun f => f.path == currentNotePath) = some file)
    (hc : mc file.path = some currCache) (e : ScoreEntry) :
    e ∈ computeRelatedNotes vault mc settings currentNotePath ↔
      ∃ cand ∈ vault.files, cand.path ≠ currentNotePath ∧
        ∃ candCache, mc cand.path = some candCache ∧
          0 < candidateScore settings file currCache
              (gatherAllPrefixSegmentsForNote (gatherTagsFromCache currCache))
              (jsToLower file.basename) cand candCache ∧
          e = ⟨cand.path, candidateScore settings file currCache
              (gatherAllPrefixSegmentsForNote (gatherTagsFromCache currCache))
              (jsToLower file.basename) cand candCache⟩ :=
  mem_computeRelatedNotes_iff vault mc settings currentNotePath file currCache hf hc e

/-! Concrete corpora used to exhibit concrete behaviour of the scorer. -/

/-- A focus file at the vault root. -/
def fileA : TFile := ⟨"a.md", "a", "/", ⟨0, 0⟩⟩

/-- A candidate file at the vault root. -/
def fileB : TFile := ⟨"b.md", "b", "/", ⟨0, 0⟩⟩

/-- A two-file corpus. -/
def twoFileVault : Vault := ⟨[fileA, fileB]⟩

/-- A snapshot with no tags and no links. -/
def emptyCache : CachedMetadata := ⟨[], .missing, []⟩

/-- A snapshot whose only tag is `#x` (gathers to `x`). -/
def taggedCache : CachedMetadata := ⟨["#x"], .missing, []⟩

/-- Snapshots available for both files, both empty. -/
def mcEmpty : MetadataCache :=
  fun p => if p = "a.md" || p = "b.md" then some emptyCache else none

/-- Snapshots available for both files, both tagged `x`. -/
def mcTagged : MetadataCache :=
  fun p => if p = "a.md" || p = "b.md" then some taggedCache else none

/-- Weights `(tag, title, path, link) = (1, 0, 0, 0)`. -/
def tagOnlySettings : Settings := ⟨1, 0, 0, 0⟩

theorem candidateScore_empty_eq_zero :
    candidateScore tagOnlySettings fileA emptyCache
      (gatherAllPrefixSegmentsForNote (gatherTagsFromCache emptyCache))
      (jsToLower fileA.basename) fileB emptyCache = 0 := by
  unfold candidateScore
  simp [tagOnlySettings, fileA, fileB, emptyCache, gatherTagsFromCache,
    gatherAllPrefixSegmentsForNote]

/-- C1 (counterexample): focus `a.md` and candidate `b.md` both carry empty
tag sets; with weights `(1,0,0,0)` the candidate's snapshot is available,
its weighted total score is `0`, yet `computeRelatedNotes` returns the empty
list — the claim's pair `{documentId, score}` for this candidate is not in
the returned list, so no-thresholding inside the scorer is refuted. -/
theorem computeRelatedNotes_includes_all_counterexample :
    (mcEmpty "b.md").isSome = true
    ∧ ("b.md" : String) ≠ "a.md"
    ∧ fileB ∈ twoFileVault.files
    ∧ candidateScore tagOnlySettings fileA emptyCache
        (gatherAllPrefixSegmentsForNote (gatherTagsFromCache emptyCache))
        (jsToLower fileA.basename) fileB emptyCache = 0
    ∧ computeRelatedNotes twoFileVault mcEmpty tagOnlySettings "a.md" = [] := by
  refine ⟨rfl, by decide, by decide, candidateScore_empty_eq_zero, ?_⟩
  rw [List.eq_nil_iff_forall_not_mem]
  intro e he
  rw [mem_computeRelatedNotes_iff twoFileVault mcEmpty tagOnlySettings "a.md"
    fileA emptyCache rfl rfl e] at he
  obtain ⟨cand, hmem, hp, cc, hcc, hpos, _⟩ := he
  simp only [twoFileVault, List.mem_cons, List.not_mem_nil, or_false] at hmem
  rcases hmem with rfl | rfl
  · exact hp rfl
  · have hcc' : cc = emptyCache := by
      simpa [mcEmpty, fileB] using hcc.symm
    rw [hcc', candidateScore_empty_eq_zero] at hpos
    exact lt_irrefl 0 hpos

/-- Witness for `computeRelatedNotes_entries`: in the concrete two-file
corpus where both files carry tag `x` and the weights are `(1,0,0,0)`, the
candidate `b.md` has total score `1 > 0` and the characterization yields its
entry in the result. -/
theorem computeRelatedNotes_entries_witness :
    (⟨"b.md", 1⟩ : ScoreEntry) ∈ computeRelatedNotes twoFileVault mcTagged tagOnlySettings "a.md" := by
  have hscore : candidateScore tagOnlySettings fileA taggedCache
      (gatherAllPrefixSegmentsForNote (gatherTagsFromCache taggedCache))
      (jsToLower fileA.basename) fileB taggedCache = 1 := by
    have e1 : gatherAllPrefixSegmentsForNote (gatherTagsFromCache taggedCache) = ["x"] := rfl
    unfold candidateScore
    simp only [e1]
    simp [tagOnlySettings, fileA, fileB, taggedCache]
  rw [computeRelatedNotes_entries twoFileVault mcTagged tagOnlySettings "a.md"
    fileA taggedCache rfl rfl]
  refine ⟨fileB, by decide, by decide, taggedCache, rfl, ?_, ?_⟩
  · rw [hscore]
    norm_num
  · rw [hscore]
    rfl

/-! ## C9 : graceful degradation on missing snapshots -/

theorem find?_filter_keep {α : Type} (l : List α) (p q : α → Bool)
    (h : ∀ x, p x = true → q x = true) :
    (l.filter q).find? p = l.find? p := by
  induction l with
  | nil => simp
  | cons x t ih =>
    by_cases hq : q x
    · simp only [List.filter_cons, hq, if_true, List.find?_cons]
      split <;> simp [ih]
    · have hp : p x = false := by
        cases hpx : p x
        · rfl
        · exact absurd (h x hpx) (by simp [hq])
      simp only [List.filter_cons, hq, Bool.false_eq_true, if_false, List.find?_cons, hp, ih]

theorem computeRelatedNotes_eq_nil_of_not_found (vault : Vault) (mc : MetadataCache)
    (settings : Settings) (currentNotePath : String)
    (hf : vault.files.find? (fun f => f.path == currentNotePath) = none) :
    computeRelatedNotes vault mc settings currentNotePath = [] := by
  unfold computeRelatedNotes
  rw [hf]

theorem computeRelatedNotes_eq_nil_of_no_cache (vault : Vault) (mc : MetadataCache)
    (settings : Settings) (currentNotePath : String) (file : TFile)
    (hf : vault.files.find? (fun f => f.path == currentNotePath) = some file)
    (hc : mc file.path = none) :
    computeRelatedNotes vault mc settings currentNotePath = [] := by
  unfold computeRelatedNotes
  rw [hf]
  simp [hc]

theorem computeRelatedNotes_eq_of_found (vault : Vault) (mc : MetadataCache)
    (settings : Settings) (currentNotePath : String) (file : TFile)
    (currCache : CachedMetadata)
    (hf : vault.files.find? (fun f => f.path == currentNotePath) = some file)
    (hc : mc file.path = some currCache) :
    computeRelatedNotes vault mc settings currentNotePath =
      (vault.files.filterMap (fun candidateFile =>
        if candidateFile.path = currentNotePath then none
        else
          match mc candidateFile.path with
          | none => none
          | some candCache =>
            if 0 < candidateScore settings file currCache
                (gatherAllPrefixSegmentsForNote (gatherTagsFromCache currCache))
                (jsToLower file.basename) candidateFile candCache then
              some ⟨candidateFile.path,
                candidateScore settings file currCache
                  (gatherAllPrefixSegmentsForNote (gatherTagsFromCache currCache))
                  (jsToLower file.basename) candidateFile candCache⟩
            else none)).mergeSort (fun a b => decide (b.score ≤ a.score)) := by
  unfold computeRelatedNotes
  rw [hf]
  simp only [hc]

/-- C9: the scorer degrades gracefully instead of failing — it is a total
function; when the focus file resolves but its metadata snapshot is
unavailable the result is the empty list; and candidates whose snapshot is
unavailable are silently omitted: the result over the full corpus equals the
result over the corpus restricted to files with a snapshot (keeping the
focus file itself), in which every remaining candidate is still scored. -/
theorem computeRelatedNotes_degrades_gracefully (vault : Vault) (mc : MetadataCache)
    (settings : Settings) (currentNotePath : String) :
    (∀ file, vault.files.find? (fun f => f.path == currentNotePath) = some file →
        mc file.path = none →
        computeRelatedNotes vault mc settings currentNotePath = [])
    ∧ computeRelatedNotes vault mc settings currentNotePath =
        computeRelatedNotes
          ⟨vault.files.filter (fun f => (mc f.path).isSome || f.path == currentNotePath)⟩
          mc settings currentNotePath := by
  have hfindeq : (vault.files.filter
      (fun f => (mc f.path).isSome || f.path == currentNotePath)).find?
        (fun f => f.path == currentNotePath) =
      vault.files.find? (fun f => f.path == currentNotePath) :=
    find?_filter_keep vault.files _ _ (fun x hx => by simp [hx])
  constructor
  · intro file hf hc
    exact computeRelatedNotes_eq_nil_of_no_cache vault mc settings currentNotePath file hf hc
  · cases hfind : vault.files.find? (fun f => f.path == currentNotePath) with
    | none =>
      rw [computeRelatedNotes_eq_nil_of_not_found vault mc settings currentNotePath hfind,
        computeRelatedNotes_eq_nil_of_not_found _ mc settings currentNotePath
          (by rw [hfindeq, hfind])]
    | some file =>
      cases hcache : mc file.path with
      | none =>
        rw [computeRelatedNotes_eq_nil_of_no_cache vault mc settings currentNotePath file
            hfind hcache,
          computeRelatedNotes_eq_nil_of_no_cache _ mc settings currentNotePath file
            (by rw [hfindeq, hfind]) hcache]
      | some currCache =>
        rw [computeRelatedNotes_eq_of_found vault mc settings currentNotePath file currCache
            hfind hcache,
          computeRelatedNotes_eq_of_found _ mc settings currentNotePath file currCache
            (by rw [hfindeq, hfind]) hcache]
        congr 1
        rw [List.filterMap_filter]
        apply List.filterMap_congr
        intro cand _
        by_cases hq : ((mc cand.path).isSome || cand.path == currentNotePath) = true
        · simp only [hq, if_true]
        · simp only [hq, Bool.false_eq_true, if_false]
          simp only [Bool.or_eq_true, beq_iff_eq, not_or] at hq
          obtain ⟨hnone, hne⟩ := hq
          have hmcnone : mc cand.path = none := by
            cases h : mc cand.path
            · rfl
            · rw [h] at hnone
              exact absurd rfl hnone
          simp [hne, hmcnone]

/-- Witness for `computeRelatedNotes_degrades_gracefully`: in a concrete
corpus whose focus file has no snapshot, the result is the empty list. -/
theorem computeRelatedNotes_degrades_gracefully_witness :
    computeRelatedNotes twoFileVault (fun _ => none) tagOnlySettings "a.md" = [] :=
  (computeRelatedNotes_degrades_gracefully twoFileVault (fun _ => none)
    tagOnlySettings "a.md").1 fileA rfl rfl

/-! ## C3 : properties of the Levenshtein similarity -/

theorem levenshteinDistance_nil_left (ys : List Char) :
    levenshteinDistance [] ys = ys.length := by
  simp [levenshteinDistance]

theorem levenshteinDistance_nil_right (xs : List Char) :
    levenshteinDistance xs [] = xs.length := by
  cases xs <;> simp [levenshteinDistance]

theorem levenshteinDistance_cons_cons (c1 c2 : Char) (s1 s2 : List Char) :
    levenshteinDistance (c1 :: s1) (c2 :: s2) =
      min (levenshteinDistance s1 (c2 :: s2) + 1)
        (min (levenshteinDistance (c1 :: s1) s2 + 1)
          (levenshteinDistance s1 s2 + if c1 = c2 then 0 else 1)) := by
  simp [levenshteinDistance]

theorem levenshteinDistance_comm_aux :
    ∀ (n : Nat) (xs ys : List Char), xs.length + ys.length ≤ n →
      levenshteinDistance xs ys = levenshteinDistance ys xs := by
  intro n
  induction n with
  | zero =>
    intro xs ys h
    have hx : xs = [] := by cases xs <;> simp_all
    have hy : ys = [] := by cases ys <;> simp_all
    rw [hx, hy]
  | succ n ih =>
    intro xs ys h
    match xs, ys with
    | [], ys => rw [levenshteinDistance_nil_left, levenshteinDistance_nil_right]
    | c1 :: s1, [] => rw [levenshteinDistance_nil_left, levenshteinDistance_nil_right]
    | c1 :: s1, c2 :: s2 =>
      simp only [List.length_cons] at h
      rw [levenshteinDistance_cons_cons, levenshteinDistance_cons_cons]
      have e1 := ih s1 (c2 :: s2) (by simp; omega)
      have e2 := ih (c1 :: s1) s2 (by simp; omega)
      have e3 := ih s1 s2 (by omega)
      have ecost : (if c1 = c2 then 0 else 1) = (if c2 = c1 then 0 else 1) := by
        by_cases hc : c1 = c2
        · subst hc; rfl
        · rw [if_neg hc, if_neg (fun hh => hc hh.symm)]
      rw [e1, e2, e3, ecost]
      omega

theorem levenshteinDistance_comm (xs ys : List Char) :
    levenshteinDistance xs ys = levenshteinDistance ys xs :=
  levenshteinDistance_comm_aux (xs.length + ys.length) xs ys le_rfl

theorem levenshteinDistance_le_max_aux :
    ∀ (n : Nat) (xs ys : List Char), xs.length + ys.length ≤ n →
      levenshteinDistance xs ys ≤ max xs.length ys.length := by
  intro n
  induction n with
  | zero =>
    intro xs ys h
    have hx : xs = [] := by cases xs <;> simp_all
    have hy : ys = [] := by cases ys <;> simp_all
    subst hx; subst hy
    simp [levenshteinDistance_nil_left]
  | succ n ih =>
    intro xs ys h
    match xs, ys with
    | [], ys => simp [levenshteinDistance_nil_left]
    | c1 :: s1, [] => simp [levenshteinDistance_nil_right]
    | c1 :: s1, c2 :: s2 =>
      simp only [List.length_cons] at h ⊢
      rw [levenshteinDistance_cons_cons]
      have h3 := ih s1 s2 (by omega)
      by_cases hc : c1 = c2 <;> simp only [hc, if_true, if_false] <;> omega

theorem levenshteinDistance_le_max (xs ys : List Char) :
    levenshteinDistance xs ys ≤ max xs.length ys.length :=
  levenshteinDistance_le_max_aux (xs.length + ys.length) xs ys le_rfl

theorem levenshteinDistance_self (xs : List Char) :
    levenshteinDistance xs xs = 0 := by
  induction xs with
  | nil => rw [levenshteinDistance_nil_left]; rfl
  | cons c s ih =>
    rw [levenshteinDistance_cons_cons]
    simp only [if_true]
    omega

theorem levenshteinDistance_eq_zero_aux :
    ∀ (n : Nat) (xs ys : List Char), xs.length + ys.length ≤ n →
      levenshteinDistance xs ys = 0 → xs = ys := by
  intro n
  induction n with
  | zero =>
    intro xs ys h _
    have hx : xs = [] := by cases xs <;> simp_all
    have hy : ys = [] := by cases ys <;> simp_all
    rw [hx, hy]
  | succ n ih =>
    intro xs ys h h0
    match xs, ys with
    | [], ys =>
      rw [levenshteinDistance_nil_left] at h0
      exact (List.eq_nil_of_length_eq_zero h0).symm
    | c1 :: s1, [] =>
      rw [levenshteinDistance_nil_right] at h0
      exact absurd h0 (by simp)
    | c1 :: s1, c2 :: s2 =>
      simp only [List.length_cons] at h
      rw [levenshteinDistance_cons_cons] at h0
      have hsub : levenshteinDistance s1 s2 + (if c1 = c2 then 0 else 1) = 0 := by omega
      by_cases hc : c1 = c2
      · rw [if_pos hc, Nat.add_zero] at hsub
        rw [hc, ih s1 s2 (by omega) hsub]
      · rw [if_neg hc] at hsub
        omega

theorem levenshteinDistance_eq_zero_iff (xs ys : List Char) :
    levenshteinDistance xs ys = 0 ↔ xs = ys := by
  constructor
  · exact levenshteinDistance_eq_zero_aux (xs.length + ys.length) xs ys le_rfl
  · rintro rfl
    exact levenshteinDistance_self xs

theorem levenshteinSimilarity_eq_formula (a b : String) :
    levenshteinSimilarity a b =
      if max a.length b.length = 0 then 1
      else (((max a.length b.length : Nat) : ℚ)
              - (levenshteinDistance a.toList b.toList : ℚ))
            / ((max a.length b.length : Nat) : ℚ) := by
  unfold levenshteinSimilarity
  by_cases hlt : a.length < b.length
  · have hmax : max a.length b.length = b.length := Nat.max_eq_right (Nat.le_of_lt hlt)
    simp only [hlt, if_true, hmax]
    rw [levenshteinDistance_comm b.toList a.toList]
  · have hmax : max a.length b.length = a.length := Nat.max_eq_left (Nat.le_of_not_lt hlt)
    simp only [hlt, if_false, hmax]

theorem toList_length (a : String) : a.toList.length = a.length := rfl

theorem string_eq_of_length_eq_zero {a : String} (h : a.length = 0) : a = "" := by
  cases a with
  | mk data =>
    have : data = [] := List.eq_nil_of_length_eq_zero h
    rw [this]

/-- C3: `levenshteinSimilarity a b` equals
`(max(|a|,|b|) − levenshteinDistance(a,b)) / max(|a|,|b|)` whenever some
string is non-empty, equals `1` on two empty strings, is symmetric, lies in
`[0, 1]`, and equals `1` exactly when `a = b`. -/
theorem levenshteinSimilarity_spec (a b : String) :
    (levenshteinSimilarity a b =
      if max a.length b.length = 0 then 1
      else (((max a.length b.length : Nat) : ℚ)
              - (levenshteinDistance a.toList b.toList : ℚ))
            / ((max a.length b.length : Nat) : ℚ))
    ∧ levenshteinSimilarity "" "" = 1
    ∧ levenshteinSimilarity a b = levenshteinSimilarity b a
    ∧ 0 ≤ levenshteinSimilarity a b
    ∧ levenshteinSimilarity a b ≤ 1
    ∧ (levenshteinSimilarity a b = 1 ↔ a = b) := by
  have hdle : levenshteinDistance a.toList b.toList ≤ max a.length b.length := by
    have := levenshteinDistance_le_max a.toList b.toList
    rwa [toList_length, toList_length] at this
  refine ⟨levenshteinSimilarity_eq_formula a b, rfl, ?_, ?_, ?_, ?_⟩
  · rw [levenshteinSimilarity_eq_formula a b, levenshteinSimilarity_eq_formula b a,
      Nat.max_comm b.length a.length, levenshteinDistance_comm b.toList a.toList]
  · rw [levenshteinSimilarity_eq_formula a b]
    split <;> rename_i hmax
    · norm_num
    · have hpos : (0 : ℚ) < ((max a.length b.length : Nat) : ℚ) := by
        exact_mod_cast Nat.pos_of_ne_zero hmax
      apply div_nonneg _ (le_of_lt hpos)
      rw [sub_nonneg]
      exact_mod_cast hdle
  · rw [levenshteinSimilarity_eq_formula a b]
    split <;> rename_i hmax
    · norm_num
    · have hpos : (0 : ℚ) < ((max a.length b.length : Nat) : ℚ) := by
        exact_mod_cast Nat.pos_of_ne_zero hmax
      rw [div_le_one hpos]
      have : (0 : ℚ) ≤ (levenshteinDistance a.toList b.toList : ℚ) := by positivity
      linarith
  · rw [levenshteinSimilarity_eq_formula a b]
    split <;> rename_i hmax
    · have ha : a = "" := string_eq_of_length_eq_zero (by omega)
      have hb : b = "" := string_eq_of_length_eq_zero (by omega)
      subst ha; subst hb
      simp
    · have hmaxq : ((max a.length b.length : Nat) : ℚ) ≠ 0 := by
        exact_mod_cast hmax
      rw [div_eq_iff hmaxq, one_mul, sub_eq_self]
      constructor
      · intro h0
        have hd : levenshteinDistance a.toList b.toList = 0 := by exact_mod_cast h0
        have hl := (levenshteinDistance_eq_zero_iff a.toList b.toList).mp hd
        cases a; cases b
        simpa [String.toList] using congrArg String.mk hl
      · rintro rfl
        rw [levenshteinDistance_self]
        norm_num

/-! ## C7 / C8 : the filter under the TagsOnly and FilesOnly scopes -/

/-- `actualTagNameMatchesQuery` for a node key. -/
def tagNameMatches (q k : String) : Bool :=
  jsIncludes (jsToLower k) (jsToLower q)

/-- `matchingFiles` for a node's direct files. -/
def matchingFilesOf (q : String) (files : List TFile) : List TFile :=
  files.filter (fun file => jsIncludes (jsToLower file.basename) (jsToLower q))

theorem filterHierarchy_nil (mode : TagFilterMode) (q : String) (anc : Bool) :
    filterHierarchy mode [] q anc = [] := by
  rw [filterHierarchy.eq_def]
  split <;> rfl

theorem filterHierarchy_tagsOnly_cons (key : String) (files : List TFile)
    (children : TagHierarchy) (t : TagHierarchy) (q : String) (anc : Bool)
    (hq : ¬ q = "") :
    filterHierarchy .TagsOnly ((key, TagNode.mk files children) :: t) q anc =
      (if tagNameMatches q key || anc
          || !(filterHierarchy .TagsOnly children q (anc || tagNameMatches q key)).isEmpty
       then (key, TagNode.mk files
              (filterHierarchy .TagsOnly children q (anc || tagNameMatches q key)))
            :: filterHierarchy .TagsOnly t q anc
       else filterHierarchy .TagsOnly t q anc) := by
  rw [filterHierarchy.eq_def, if_neg hq]
  rfl

theorem filterHierarchy_filesOnly_cons (key : String) (files : List TFile)
    (children : TagHierarchy) (t : TagHierarchy) (q : String) (anc : Bool)
    (hq : ¬ q = "") :
    filterHierarchy .FilesOnly ((key, TagNode.mk files children) :: t) q anc =
      (if !(matchingFilesOf q files).isEmpty
          || !(filterHierarchy .FilesOnly children q (anc || tagNameMatches q key)).isEmpty
       then (key, TagNode.mk (matchingFilesOf q files)
              (filterHierarchy .FilesOnly children q (anc || tagNameMatches q key)))
            :: filterHierarchy .FilesOnly t q anc
       else if (tagNameMatches q key || anc)
          && (filterHierarchy .FilesOnly children q (anc || tagNameMatches q key)).isEmpty
          && (matchingFilesOf q files).isEmpty
       then (key, TagNode.mk []
              (filterHierarchy .FilesOnly children q (anc || tagNameMatches q key)))
            :: filterHierarchy .FilesOnly t q anc
       else filterHierarchy .FilesOnly t q anc) := by
  rw [filterHierarchy.eq_def, if_neg hq]
  rfl

theorem tagsOnly_result_entries (q : String) (anc : Bool) (hq : ¬ q = "") :
    ∀ h : TagHierarchy, ∀ e ∈ filterHierarchy .TagsOnly h q anc,
      ∃ n, (e.1, n) ∈ h ∧ e.2.files = n.files ∧
        e.2.children = filterHierarchy .TagsOnly n.children q (anc || tagNameMatches q e.1) ∧
        (tagNameMatches q e.1 = true ∨ anc = true ∨ e.2.children ≠ []) := by
  intro h
  induction h with
  | nil =>
    intro e he
    rw [filterHierarchy_nil] at he
    exact absurd he (List.not_mem_nil e)
  | cons hd t ih =>
    obtain ⟨key, node⟩ := hd
    obtain ⟨files, children⟩ := node
    intro e he
    rw [filterHierarchy_tagsOnly_cons key files children t q anc hq] at he
    split at he <;> rename_i hcond
    · rcases List.mem_cons.mp he with rfl | he'
      · refine ⟨TagNode.mk files children, List.mem_cons_self _ _, rfl, rfl, ?_⟩
        simp only [Bool.or_eq_true, Bool.not_eq_eq_eq_not, Bool.not_true,
          List.isEmpty_eq_false] at hcond
        rcases hcond with (hm | ha) | hne
        · exact Or.inl hm
        · exact Or.inr (Or.inl ha)
        · exact Or.inr (Or.inr (by simpa [TagNode.children] using hne))
      · obtain ⟨n, hn, hf, hc, hcnd⟩ := ih e he'
        exact ⟨n, List.mem_cons_of_mem _ hn, hf, hc, hcnd⟩
    · obtain ⟨n, hn, hf, hc, hcnd⟩ := ih e he
      exact ⟨n, List.mem_cons_of_mem _ hn, hf, hc, hcnd⟩

theorem tagsOnly_mem_of_cond (q : String) (anc : Bool) (hq : ¬ q = "") :
    ∀ (h : TagHierarchy) (ke : String × TagNode), ke ∈ h →
      (tagNameMatches q ke.1 = true ∨ anc = true ∨
        filterHierarchy .TagsOnly ke.2.children q (anc || tagNameMatches q ke.1) ≠ []) →
      (ke.1, TagNode.mk ke.2.files
          (filterHierarchy .TagsOnly ke.2.children q (anc || tagNameMatches q ke.1)))
        ∈ filterHierarchy .TagsOnly h q anc := by
  intro h
  induction h with
  | nil =>
    intro ke hke
    exact absurd hke (List.not_mem_nil ke)
  | cons hd t ih =>
    obtain ⟨key, node⟩ := hd
    obtain ⟨files, children⟩ := node
    intro ke hke hcond
    rw [filterHierarchy_tagsOnly_cons key files children t q anc hq]
    rcases List.mem_cons.mp hke with rfl | hke'
    · have hbool : (tagNameMatches q key || anc
          || !(filterHierarchy .TagsOnly children q (anc || tagNameMatches q key)).isEmpty)
            = true := by
        rcases hcond with hm | ha | hne
        · simp [TagNode.children] at hm ⊢
          exact Or.inl (Or.inl hm)
        · simp [ha]
        · simp only [TagNode.children] at hne
          simp [List.isEmpty_eq_false, hne]
      rw [if_pos hbool]
      exact List.mem_cons_self _ _
    · have hmem := ih ke hke' hcond
      split
      · exact List.mem_cons_of_mem _ hmem
      · exact hmem

/-- C7: under the TagsOnly scope (with a non-empty query), an entry of the
source hierarchy survives the filter exactly when its name matches the
query, or an ancestor matched, or it has surviving filtered children; and
every node of the filtered result reveals the full direct file set of a
source node — no document is excluded because of its own name. -/
theorem filterHierarchy_tagsOnly_spec (q : String) (h : TagHierarchy) (anc : Bool)
    (hq : q ≠ "") :
    (∀ e ∈ filterHierarchy .TagsOnly h q anc, ∃ n, (e.1, n) ∈ h ∧ e.2.files = n.files)
    ∧ (∀ ke ∈ h,
        ((ke.1, TagNode.mk ke.2.files
            (filterHierarchy .TagsOnly ke.2.children q (anc || tagNameMatches q ke.1)))
          ∈ filterHierarchy .TagsOnly h q anc
        ↔ (tagNameMatches q ke.1 = true ∨ anc = true ∨
            filterHierarchy .TagsOnly ke.2.children q (anc || tagNameMatches q ke.1) ≠ []))) := by
  constructor
  · intro e he
    obtain ⟨n, hn, hf, _⟩ := tagsOnly_result_entries q anc hq h e he
    exact ⟨n, hn, hf⟩
  · intro ke hke
    constructor
    · intro hmem
      obtain ⟨n, _, _, _, hcnd⟩ := tagsOnly_result_entries q anc hq h _ hmem
      simpa [TagNode.children] using hcnd
    · exact tagsOnly_mem_of_cond q anc hq h ke hke

/-- Witness for `filterHierarchy_tagsOnly_spec`: in a one-node hierarchy
whose key equals the query, the node survives with its full file list. -/
theorem filterHierarchy_tagsOnly_spec_witness :
    ("x", TagNode.mk [fileA]
        (filterHierarchy .TagsOnly [] "x" (false || tagNameMatches "x" "x")))
      ∈ filterHierarchy .TagsOnly [("x", TagNode.mk [fileA] [])] "x" false := by
  have h := filterHierarchy_tagsOnly_spec "x" [("x", TagNode.mk [fileA] [])] false
    (by decide)
  exact (h.2 ("x", TagNode.mk [fileA] []) (List.mem_cons_self _ _)).mpr
    (Or.inl (by decide))

theorem filesOnly_mem_of_content (q : String) (anc : Bool) (hq : ¬ q = "") :
    ∀ (h : TagHierarchy) (ke : String × TagNode), ke ∈ h →
      (matchingFilesOf q ke.2.files ≠ [] ∨
        filterHierarchy .FilesOnly ke.2.children q (anc || tagNameMatches q ke.1) ≠ []) →
      (ke.1, TagNode.mk (matchingFilesOf q ke.2.files)
          (filterHierarchy .FilesOnly ke.2.children q (anc || tagNameMatches q ke.1)))
        ∈ filterHierarchy .FilesOnly h q anc := by
  intro h
  induction h with
  | nil =>
    intro ke hke
    exact absurd hke (List.not_mem_nil ke)
  | cons hd t ih =>
    obtain ⟨key, node⟩ := hd
    obtain ⟨files, children⟩ := node
    intro ke hke hcond
    rw [filterHierarchy_filesOnly_cons key files children t q anc hq]
    rcases List.mem_cons.mp hke with rfl | hke'
    · have hbool : (!(matchingFilesOf q files).isEmpty
          || !(filterHierarchy .FilesOnly children q (anc || tagNameMatches q key)).isEmpty)
            = true := by
        simp only [TagNode.files, TagNode.children] at hcond
        rcases hcond with hmf | hfc
        · simp [List.isEmpty_eq_false, hmf]
        · simp [List.isEmpty_eq_false, hfc]
      rw [if_pos hbool]
      exact List.mem_cons_self _ _
    · have hmem := ih ke hke' hcond
      split
      · exact List.mem_cons_of_mem _ hmem
      · split
        · exact List.mem_cons_of_mem _ hmem
        · exact hmem

theorem filesOnly_mem_placeholder (q : String) (anc : Bool) (hq : ¬ q = "") :
    ∀ (h : TagHierarchy) (ke : String × TagNode), ke ∈ h →
      matchingFilesOf q ke.2.files = [] →
      filterHierarchy .FilesOnly ke.2.children q (anc || tagNameMatches q ke.1) = [] →
      (tagNameMatches q ke.1 = true ∨ anc = true) →
      (ke.1, TagNode.mk []
          (filterHierarchy .FilesOnly ke.2.children q (anc || tagNameMatches q ke.1)))
        ∈ filterHierarchy .FilesOnly h q anc := by
  intro h
  induction h with
  | nil =>
    intro ke hke
    exact absurd hke (List.not_mem_nil ke)
  | cons hd t ih =>
    obtain ⟨key, node⟩ := hd
    obtain ⟨files, children⟩ := node
    intro ke hke hmf hfc hmatch
    rw [filterHierarchy_filesOnly_cons key files children t q anc hq]
    rcases List.mem_cons.mp hke with rfl | hke'
    · simp only [TagNode.files, TagNode.children] at hmf hfc
      have hbool1 : (!(matchingFilesOf q files).isEmpty
          || !(filterHierarchy .FilesOnly children q (anc || tagNameMatches q key)).isEmpty)
            = false := by
        simp [hmf, hfc]
      have hbool2 : ((tagNameMatches q key || anc)
          && (filterHierarchy .FilesOnly children q (anc || tagNameMatches q key)).isEmpty
          && (matchingFilesOf q files).isEmpty) = true := by
        rw [hfc, hmf]
        rcases hmatch with hm | ha
        · have hm' : tagNameMatches q key = true := hm
          simp [hm']
        · simp [ha]
      rw [hbool1]
      simp only [Bool.false_eq_true, if_false]
      rw [if_pos hbool2]
      exact List.mem_cons_self _ _
    · have hmem := ih ke hke' hmf hfc hmatch
      split
      · exact List.mem_cons_of_mem _ hmem
      · split
        · exact List.mem_cons_of_mem _ hmem
        · exact hmem

theorem filesOnly_result_entries (q : String) (anc : Bool) (hq : ¬ q = "") :
    ∀ h : TagHierarchy, ∀ e ∈ filterHierarchy .FilesOnly h q anc,
      ∃ n, (e.1, n) ∈ h ∧
        (((matchingFilesOf q n.files ≠ [] ∨
            filterHierarchy .FilesOnly n.children q (anc || tagNameMatches q e.1) ≠ []) ∧
           e.2 = TagNode.mk (matchingFilesOf q n.files)
             (filterHierarchy .FilesOnly n.children q (anc || tagNameMatches q e.1)))
         ∨ (matchingFilesOf q n.files = [] ∧
            filterHierarchy .FilesOnly n.children q (anc || tagNameMatches q e.1) = [] ∧
            (tagNameMatches q e.1 = true ∨ anc = true) ∧
            e.2 = TagNode.mk [] [])) := by
  intro h
  induction h with
  | nil =>
    intro e he
    rw [filterHierarchy_nil] at he
    exact absurd he (List.not_mem_nil e)
  | cons hd t ih =>
    obtain ⟨key, node⟩ := hd
    obtain ⟨files, children⟩ := node
    intro e he
    rw [filterHierarchy_filesOnly_cons key files children t q anc hq] at he
    split at he <;> rename_i hcond1
    · rcases List.mem_cons.mp he with rfl | he'
      · refine ⟨TagNode.mk files children, List.mem_cons_self _ _, Or.inl ⟨?_, rfl⟩⟩
        simp only [Bool.or_eq_true, Bool.not_eq_eq_eq_not, Bool.not_true,
          List.isEmpty_eq_false] at hcond1
        exact hcond1
      · obtain ⟨n, hn, hcase⟩ := ih e he'
        exact ⟨n, List.mem_cons_of_mem _ hn, hcase⟩
    · split at he <;> rename_i hcond2
      · rcases List.mem_cons.mp he with rfl | he'
        · simp only [Bool.and_eq_true, Bool.or_eq_true, List.isEmpty_eq_true] at hcond2
          obtain ⟨⟨hka, hfc⟩, hmf⟩ := hcond2
          refine ⟨TagNode.mk files children, List.mem_cons_self _ _,
            Or.inr ⟨hmf, hfc, hka, ?_⟩⟩
          simp only [TagNode.children]
          rw [hfc]
        · obtain ⟨n, hn, hcase⟩ := ih e he'
          exact ⟨n, List.mem_cons_of_mem _ hn, hcase⟩
      · obtain ⟨n, hn, hcase⟩ := ih e he
        exact ⟨n, List.mem_cons_of_mem _ hn, hcase⟩

/-- C8: under the FilesOnly scope (with a non-empty query), a source entry
with matching direct files or surviving filtered children is kept revealing
exactly its matching files; a source entry with no matching files and no
surviving children whose own name or an ancestor's name matched is kept as
an empty structural placeholder (no files, no children); and every entry of
the filtered result arises from a source entry in exactly one of these two
ways. -/
theorem filterHierarchy_filesOnly_spec (q : String) (h : TagHierarchy) (anc : Bool)
    (hq : q ≠ "") :
    (∀ ke ∈ h,
      ((matchingFilesOf q ke.2.files ≠ [] ∨
          filterHierarchy .FilesOnly ke.2.children q (anc || tagNameMatches q ke.1) ≠ []) →
        (ke.1, TagNode.mk (matchingFilesOf q ke.2.files)
            (filterHierarchy .FilesOnly ke.2.children q (anc || tagNameMatches q ke.1)))
          ∈ filterHierarchy .FilesOnly h q anc)
      ∧ (matchingFilesOf q ke.2.files = [] →
          filterHierarchy .FilesOnly ke.2.children q (anc || tagNameMatches q ke.1) = [] →
          (tagNameMatches q ke.1 = true ∨ anc = true) →
          (ke.1, TagNode.mk []
              (filterHierarchy .FilesOnly ke.2.children q (anc || tagNameMatches q ke.1)))
            ∈ filterHierarchy .FilesOnly h q anc))
    ∧ (∀ e ∈ filterHierarchy .FilesOnly h q anc,
        ∃ n, (e.1, n) ∈ h ∧
          (((matchingFilesOf q n.files ≠ [] ∨
              filterHierarchy .FilesOnly n.children q (anc || tagNameMatches q e.1) ≠ []) ∧
             e.2 = TagNode.mk (matchingFilesOf q n.files)
               (filterHierarchy .FilesOnly n.children q (anc || tagNameMatches q e.1)))
           ∨ (matchingFilesOf q n.files = [] ∧
              filterHierarchy .FilesOnly n.children q (anc || tagNameMatches q e.1) = [] ∧
              (tagNameMatches q e.1 = true ∨ anc = true) ∧
              e.2 = TagNode.mk [] []))) := by
  refine ⟨fun ke hke => ⟨?_, ?_⟩, ?_⟩
  · exact filesOnly_mem_of_content q anc hq h ke hke
  · exact filesOnly_mem_placeholder q anc hq h ke hke
  · exact filesOnly_result_entries q anc hq h

/-- Witness for `filterHierarchy_filesOnly_spec`: a node keyed `cli` with a
single non-matching file and no children, under query `cli`, survives as an
empty structural placeholder. -/
theorem filterHierarchy_filesOnly_spec_witness :
    ("cli", TagNode.mk []
        (filterHierarchy .FilesOnly [] "cli" (false || tagNameMatches "cli" "cli")))
      ∈ filterHierarchy .FilesOnly [("cli", TagNode.mk [fileA] [])] "cli" false := by
  have h := filterHierarchy_filesOnly_spec "cli" [("cli", TagNode.mk [fileA] [])] false
    (by decide)
  exact ((h.1 ("cli", TagNode.mk [fileA] []) (List.mem_cons_self _ _)).2
    (by decide) (filterHierarchy_nil _ _ _) (Or.inl (by decide)))

/-! ## C5 : the hierarchy builder -/

/-- The body of the per-file loop of `buildTagHierarchy`. -/
def buildStep (mc : MetadataCache) (hierarchy : TagHierarchy) (file : TFile) :
    TagHierarchy :=
  match mc file.path with
  | some fileCache =>
    let tags := gatherTagsFromCache fileCache
    if tags = [] then
      modifyKey hierarchy "untagged"
        (fun node => TagNode.mk (fileSetAdd node.files file) node.children)
    else
      tags.foldl
        (fun h tag => addToHierarchy h (jsSplit tag (fun c => c = '/')) file)
        hierarchy
  | none =>
    modifyKey hierarchy "untagged"
      (fun node => TagNode.mk (fileSetAdd node.files file) node.children)

theorem buildTagHierarchy_eq_foldl (vault : Vault) (mc : MetadataCache) :
    buildTagHierarchy vault mc = vault.files.foldl (buildStep mc) [] := rfl

theorem modifyKey_untagged_eq_addToHierarchy (h : TagHierarchy) (file : TFile) :
    modifyKey h "untagged"
      (fun node => TagNode.mk (fileSetAdd node.files file) node.children)
    = addToHierarchy h ["untagged"] file := rfl

theorem lookupKey_modifyKey_self (h : TagHierarchy) (k : String) (f : TagNode → TagNode) :
    lookupKey (modifyKey h k f) k =
      some (f ((lookupKey h k).getD (TagNode.mk [] []))) := by
  induction h with
  | nil => simp [modifyKey, lookupKey]
  | cons e t ih =>
    obtain ⟨k', n⟩ := e
    by_cases hk : k' = k
    · subst hk
      simp [modifyKey, lookupKey]
    · simp only [modifyKey, if_neg hk]
      simp only [lookupKey, List.find?_cons] at ih ⊢
      have hbeq : (k' == k) = false := by
        exact beq_eq_false_iff_ne.mpr hk
      simp only [hbeq]
      exact ih

theorem lookupKey_modifyKey_other (h : TagHierarchy) (k k' : String)
    (f : TagNode → TagNode) (hne : k' ≠ k) :
    lookupKey (modifyKey h k f) k' = lookupKey h k' := by
  induction h with
  | nil =>
    simp only [modifyKey, lookupKey, List.find?_cons, List.find?_nil]
    have hbeq : (k == k') = false := beq_eq_false_iff_ne.mpr (fun e => hne e.symm)
    simp [hbeq]
  | cons e t ih =>
    obtain ⟨k'', n⟩ := e
    by_cases hk : k'' = k
    · subst hk
      have hbeq : (k'' == k') = false := beq_eq_false_iff_ne.mpr (fun e => hne e.symm)
      simp [modifyKey, lookupKey, List.find?_cons, hbeq]
    · simp only [modifyKey, if_neg hk]
      simp only [lookupKey, List.find?_cons] at ih ⊢
      cases hbeq : (k'' == k')
      · exact ih
      · rfl

theorem splitChars_ne_nil (p : Char → Bool) (cs : List Char) : splitChars p cs ≠ [] := by
  induction cs with
  | nil => simp [splitChars]
  | cons c cs ih =>
    rw [splitChars]
    split
    · simp
    · split <;> simp

theorem jsSplit_ne_nil (s : String) (p : Char → Bool) : jsSplit s p ≠ [] := by
  unfold jsSplit
  simp only [ne_eq, List.map_eq_nil_iff]
  exact splitChars_ne_nil p s.data

theorem nodeAtPath_addToHierarchy_self :
    ∀ (segs : List String) (h : TagHierarchy) (file : TFile), segs ≠ [] →
      ∃ n, nodeAtPath (addToHierarchy h segs file) segs = some n ∧ file ∈ n.files := by
  intro segs
  induction segs with
  | nil =>
    intro h file hne
    exact absurd rfl hne
  | cons k rest ih =>
    intro h file _
    cases rest with
    | nil =>
      refine ⟨TagNode.mk
        (fileSetAdd ((lookupKey h k).getD (TagNode.mk [] [])).files file)
        ((lookupKey h k).getD (TagNode.mk [] [])).children, ?_, ?_⟩
      · show nodeAtPath (modifyKey h k _) [k] = _
        simp only [nodeAtPath]
        rw [lookupKey_modifyKey_self]
      · simp only [TagNode.files]
        exact mem_fileSetAdd.mpr (Or.inr rfl)
    | cons k2 rest2 =>
      have hstep : addToHierarchy h (k :: k2 :: rest2) file =
          modifyKey h k (fun node =>
            TagNode.mk node.files (addToHierarchy node.children (k2 :: rest2) file)) := rfl
      obtain ⟨n, hn, hf⟩ := ih ((lookupKey h k).getD (TagNode.mk [] [])).children file
        (by simp)
      refine ⟨n, ?_, hf⟩
      rw [hstep]
      show (match lookupKey (modifyKey h k _) k with
            | none => none
            | some n => nodeAtPath n.children (k2 :: rest2)) = some n
      rw [lookupKey_modifyKey_self]
      simpa [TagNode.children] using hn

theorem nodeAtPath_addToHierarchy_preserve :
    ∀ (p : List String) (h : TagHierarchy) (segs : List String) (file : TFile) (n : TagNode),
      nodeAtPath h p = some n →
      ∃ n', nodeAtPath (addToHierarchy h segs file) p = some n' ∧
        ∀ x ∈ n.files, x ∈ n'.files := by
  intro p
  induction p with
  | nil =>
    intro h segs file n hn
    simp [nodeAtPath] at hn
  | cons k prest ih =>
    intro h segs file n hn
    cases segs with
    | nil => exact ⟨n, hn, fun x hx => hx⟩
    | cons s srest =>
      by_cases hks : s = k
      · subst hks
        cases srest with
        | nil =>
          have hstep : addToHierarchy h [s] file =
              modifyKey h s (fun node =>
                TagNode.mk (fileSetAdd node.files file) node.children) := rfl
          cases prest with
          | nil =>
            simp only [nodeAtPath] at hn
            refine ⟨TagNode.mk (fileSetAdd n.files file) n.children, ?_, ?_⟩
            · rw [hstep]
              show lookupKey (modifyKey h s _) s = _
              rw [lookupKey_modifyKey_self, hn]
              rfl
            · intro x hx
              simp only [TagNode.files]
              exact mem_fileSetAdd.mpr (Or.inl hx)
          | cons q qs =>
            simp only [nodeAtPath] at hn
            cases hm : lookupKey h s with
            | none => rw [hm] at hn; exact absurd hn (by simp)
            | some m =>
              rw [hm] at hn
              refine ⟨n, ?_, fun x hx => hx⟩
              rw [hstep]
              show (match lookupKey (modifyKey h s _) s with
                    | none => none
                    | some nn => nodeAtPath nn.children (q :: qs)) = some n
              rw [lookupKey_modifyKey_self, hm]
              simpa [TagNode.children] using hn
        | cons s2 ss =>
          have hstep : addToHierarchy h (s :: s2 :: ss) file =
              modifyKey h s (fun node =>
                TagNode.mk node.files (addToHierarchy node.children (s2 :: ss) file)) := rfl
          cases prest with
          | nil =>
            simp only [nodeAtPath] at hn
            refine ⟨TagNode.mk n.files (addToHierarchy n.children (s2 :: ss) file), ?_, ?_⟩
            · rw [hstep]
              show lookupKey (modifyKey h s _) s = _
              rw [lookupKey_modifyKey_self, hn]
              rfl
            · intro x hx
              simpa [TagNode.files] using hx
          | cons q qs =>
            simp only [nodeAtPath] at hn
            cases hm : lookupKey h s with
            | none => rw [hm] at hn; exact absurd hn (by simp)
            | some m =>
              rw [hm] at hn
              obtain ⟨n', hn', hsub⟩ := ih m.children (s2 :: ss) file n hn
              refine ⟨n', ?_, hsub⟩
              rw [hstep]
              show (match lookupKey (modifyKey h s _) s with
                    | none => none
                    | some nn => nodeAtPath nn.children (q :: qs)) = some n'
              rw [lookupKey_modifyKey_self, hm]
              simpa [TagNode.children] using hn'
      · have hlk : ∀ g, lookupKey (modifyKey h s g) k = lookupKey h k :=
          fun g => lookupKey_modifyKey_other h s k g (fun e => hks e.symm)
        have hstep : ∃ g, addToHierarchy h (s :: srest) file = modifyKey h s g := by
          cases srest with
          | nil => exact ⟨_, rfl⟩
          | cons s2 ss => exact ⟨_, rfl⟩
        obtain ⟨g, hg⟩ := hstep
        cases prest with
        | nil =>
          simp only [nodeAtPath] at hn
          refine ⟨n, ?_, fun x hx => hx⟩
          rw [hg]
          show lookupKey (modifyKey h s g) k = some n
          rw [hlk g, hn]
        | cons q qs =>
          simp only [nodeAtPath] at hn
          cases hm : lookupKey h k with
          | none => rw [hm] at hn; exact absurd hn (by simp)
          | some m =>
            rw [hm] at hn
            refine ⟨n, ?_, fun x hx => hx⟩
            rw [hg]
            show (match lookupKey (modifyKey h s g) k with
                  | none => none
                  | some nn => nodeAtPath nn.children (q :: qs)) = some n
            rw [hlk g, hm]
            exact hn

theorem nodeAtPath_foldl_tags_preserve (file' : TFile) :
    ∀ (tags : List String) (h : TagHierarchy) (p : List String) (n : TagNode),
      nodeAtPath h p = some n →
      ∃ n', nodeAtPath
          (tags.foldl (fun h tag => addToHierarchy h (jsSplit tag (fun c => c = '/')) file') h)
          p = some n' ∧ ∀ x ∈ n.files, x ∈ n'.files := by
  intro tags
  induction tags with
  | nil => exact fun h p n hn => ⟨n, hn, fun x hx => hx⟩
  | cons tg tgs ih =>
    intro h p n hn
    obtain ⟨m, hm, hsub1⟩ :=
      nodeAtPath_addToHierarchy_preserve p h (jsSplit tg (fun c => c = '/')) file' n hn
    obtain ⟨n', hn', hsub2⟩ := ih _ p m hm
    exact ⟨n', hn', fun x hx => hsub2 x (hsub1 x hx)⟩

theorem nodeAtPath_buildStep_preserve (mc : MetadataCache) (file' : TFile) :
    ∀ (h : TagHierarchy) (p : List String) (n : TagNode),
      nodeAtPath h p = some n →
      ∃ n', nodeAtPath (buildStep mc h file') p = some n' ∧ ∀ x ∈ n.files, x ∈ n'.files := by
  intro h p n hn
  unfold buildStep
  cases mc file'.path with
  | none =>
    rw [modifyKey_untagged_eq_addToHierarchy]
    exact nodeAtPath_addToHierarchy_preserve p h ["untagged"] file' n hn
  | some fileCache =>
    by_cases htags : gatherTagsFromCache fileCache = []
    · simp only [htags, if_pos rfl]
      rw [modifyKey_untagged_eq_addToHierarchy]
      exact nodeAtPath_addToHierarchy_preserve p h ["untagged"] file' n hn
    · simp only [if_neg htags]
      exact nodeAtPath_foldl_tags_preserve file' _ h p n hn

theorem nodeAtPath_foldl_files_preserve (mc : MetadataCache) :
    ∀ (files : List TFile) (h : TagHierarchy) (p : List String) (n : TagNode),
      nodeAtPath h p = some n →
      ∃ n', nodeAtPath (files.foldl (buildStep mc) h) p = some n' ∧
        ∀ x ∈ n.files, x ∈ n'.files := by
  intro files
  induction files with
  | nil => exact fun h p n hn => ⟨n, hn, fun x hx => hx⟩
  | cons f fs ih =>
    intro h p n hn
    obtain ⟨m, hm, hsub1⟩ := nodeAtPath_buildStep_preserve mc f h p n hn
    obtain ⟨n', hn', hsub2⟩ := ih _ p m hm
    exact ⟨n', hn', fun x hx => hsub2 x (hsub1 x hx)⟩

theorem nodeAtPath_foldl_tags_insert (file : TFile) :
    ∀ (tags : List String) (h : TagHierarchy) (tag : String), tag ∈ tags →
      ∃ n, nodeAtPath
          (tags.foldl (fun h tg => addToHierarchy h (jsSplit tg (fun c => c = '/')) file) h)
          (jsSplit tag (fun c => c = '/')) = some n ∧ file ∈ n.files := by
  intro tags
  induction tags with
  | nil =>
    intro h tag htag
    exact absurd htag (List.not_mem_nil tag)
  | cons tg tgs ih =>
    intro h tag htag
    rcases List.mem_cons.mp htag with rfl | htag'
    · obtain ⟨m, hm, hf⟩ := nodeAtPath_addToHierarchy_self
        (jsSplit tag (fun c => c = '/')) h file (jsSplit_ne_nil tag _)
      obtain ⟨n, hn, hsub⟩ := nodeAtPath_foldl_tags_preserve file tgs _ _ m hm
      exact ⟨n, hn, hsub file hf⟩
    · exact ih _ tag htag'

theorem buildStep_inserts_tagged (mc : MetadataCache) (file : TFile)
    (fileCache : CachedMetadata) (hc : mc file.path = some fileCache) :
    ∀ (h : TagHierarchy) (tag : String), tag ∈ gatherTagsFromCache fileCache →
      ∃ n, nodeAtPath (buildStep mc h file) (jsSplit tag (fun c => c = '/')) = some n ∧
        file ∈ n.files := by
  intro h tag htag
  unfold buildStep
  rw [hc]
  have hne : gatherTagsFromCache fileCache ≠ [] := by
    intro h0
    rw [h0] at htag
    exact List.not_mem_nil tag htag
  simp only [if_neg hne]
  exact nodeAtPath_foldl_tags_insert file _ h tag htag

theorem buildStep_inserts_untagged (mc : MetadataCache) (file : TFile)
    (hempty : mc file.path = none ∨
      ∃ fileCache, mc file.path = some fileCache ∧ gatherTagsFromCache fileCache = []) :
    ∀ h : TagHierarchy,
      ∃ n, nodeAtPath (buildStep mc h file) ["untagged"] = some n ∧ file ∈ n.files := by
  intro h
  unfold buildStep
  rcases hempty with hnone | ⟨fileCache, hsome, htags⟩
  · rw [hnone, modifyKey_untagged_eq_addToHierarchy]
    exact nodeAtPath_addToHierarchy_self ["untagged"] h file (by simp)
  · rw [hsome]
    simp only [htags, if_pos rfl]
    rw [modifyKey_untagged_eq_addToHierarchy]
    exact nodeAtPath_addToHierarchy_self ["untagged"] h file (by simp)

theorem foldl_files_inserts (mc : MetadataCache) :
    ∀ (files : List TFile) (h : TagHierarchy) (file : TFile), file ∈ files →
      (∀ (fileCache : CachedMetadata), mc file.path = some fileCache →
        ∀ tag ∈ gatherTagsFromCache fileCache,
          ∃ n, nodeAtPath (files.foldl (buildStep mc) h)
              (jsSplit tag (fun c => c = '/')) = some n ∧ file ∈ n.files)
      ∧ ((mc file.path = none ∨
          ∃ fileCache, mc file.path = some fileCache ∧ gatherTagsFromCache fileCache = []) →
        ∃ n, nodeAtPath (files.foldl (buildStep mc) h) ["untagged"] = some n ∧
          file ∈ n.files) := by
  intro files
  induction files with
  | nil =>
    intro h file hfile
    exact absurd hfile (List.not_mem_nil file)
  | cons f fs ih =>
    intro h file hfile
    rcases List.mem_cons.mp hfile with rfl | hfile'
    · constructor
      · intro fileCache hc tag htag
        obtain ⟨m, hm, hmem⟩ := buildStep_inserts_tagged mc file fileCache hc h tag htag
        obtain ⟨n, hn, hsub⟩ := nodeAtPath_foldl_files_preserve mc fs _ _ m hm
        exact ⟨n, hn, hsub file hmem⟩
      · intro hempty
        obtain ⟨m, hm, hmem⟩ := buildStep_inserts_untagged mc file hempty h
        obtain ⟨n, hn, hsub⟩ := nodeAtPath_foldl_files_preserve mc fs _ _ m hm
        exact ⟨n, hn, hsub file hmem⟩
    · exact ih _ file hfile'

theorem hierarchyReachableFiles_nil : hierarchyReachableFiles [] = [] := by
  rw [hierarchyReachableFiles]

theorem hierarchyReachableFiles_cons (k : String) (n : TagNode) (t : TagHierarchy) :
    hierarchyReachableFiles ((k, n) :: t) =
      nodeReachableFiles n ++ hierarchyReachableFiles t := by
  rw [hierarchyReachableFiles]

theorem nodeReachableFiles_mk (fs : List TFile) (cs : TagHierarchy) :
    nodeReachableFiles (TagNode.mk fs cs) = fs ++ hierarchyReachableFiles cs := by
  rw [nodeReachableFiles]

theorem mem_reach_of_entry :
    ∀ (h : TagHierarchy) (e : String × TagNode), e ∈ h →
      ∀ x ∈ nodeReachableFiles e.2, x ∈ hierarchyReachableFiles h := by
  intro h
  induction h with
  | nil =>
    intro e he
    exact absurd he (List.not_mem_nil e)
  | cons hd t ih =>
    intro e he x hx
    obtain ⟨k, n⟩ := hd
    rw [hierarchyReachableFiles_cons, List.mem_append]
    rcases List.mem_cons.mp he with rfl | he'
    · exact Or.inl hx
    · exact Or.inr (ih e he' x hx)

theorem lookupKey_mem (h : TagHierarchy) (k : String) (n : TagNode)
    (hl : lookupKey h k = some n) : ∃ e ∈ h, e.2 = n := by
  unfold lookupKey at hl
  cases hf : h.find? (fun e => e.1 == k) with
  | none => rw [hf] at hl; exact absurd hl (by simp)
  | some e =>
    rw [hf] at hl
    simp at hl
    exact ⟨e, List.mem_of_find?_eq_some hf, hl⟩

theorem nodeAtPath_files_subset_reach :
    ∀ (p : List String) (h : TagHierarchy) (n : TagNode), nodeAtPath h p = some n →
      ∀ x ∈ n.files, x ∈ hierarchyReachableFiles h := by
  intro p
  induction p with
  | nil =>
    intro h n hn
    simp [nodeAtPath] at hn
  | cons k prest ih =>
    intro h n hn x hx
    cases prest with
    | nil =>
      simp only [nodeAtPath] at hn
      obtain ⟨e, he, hme⟩ := lookupKey_mem h k n hn
      obtain ⟨k0, n0⟩ := e
      simp only at hme
      subst hme
      obtain ⟨fs, cs⟩ := n0
      apply mem_reach_of_entry h (k0, TagNode.mk fs cs) he x
      rw [nodeReachableFiles_mk]
      refine List.mem_append.mpr (Or.inl ?_)
      simpa [TagNode.files] using hx
    | cons q qs =>
      simp only [nodeAtPath] at hn
      cases hm : lookupKey h k with
      | none => rw [hm] at hn; exact absurd hn (by simp)
      | some m =>
        rw [hm] at hn
        have hxm : x ∈ hierarchyReachableFiles m.children := ih m.children n hn x hx
        obtain ⟨e, he, hme⟩ := lookupKey_mem h k m hm
        obtain ⟨k0, n0⟩ := e
        simp only at hme
        subst hme
        obtain ⟨fs, cs⟩ := n0
        apply mem_reach_of_entry h (k0, TagNode.mk fs cs) he x
        rw [nodeReachableFiles_mk]
        refine List.mem_append.mpr (Or.inr ?_)
        simpa [TagNode.children] using hxm

theorem reach_modifyKey_subset (key : String) (g : TagNode → TagNode) (file : TFile)
    (hg : ∀ n x, x ∈ nodeReachableFiles (g n) → x ∈ nodeReachableFiles n ∨ x = file) :
    ∀ (h : TagHierarchy) (x : TFile),
      x ∈ hierarchyReachableFiles (modifyKey h key g) →
        x ∈ hierarchyReachableFiles h ∨ x = file := by
  intro h
  induction h with
  | nil =>
    intro x hx
    simp only [modifyKey, hierarchyReachableFiles_cons, hierarchyReachableFiles_nil,
      List.append_nil] at hx
    rcases hg _ x hx with hin | heq
    · rw [nodeReachableFiles_mk, hierarchyReachableFiles_nil] at hin
      exact absurd hin (by simp)
    · exact Or.inr heq
  | cons hd t ih =>
    intro x hx
    obtain ⟨k, n⟩ := hd
    simp only [modifyKey] at hx
    by_cases hk : k = key
    · rw [if_pos hk] at hx
      rw [hierarchyReachableFiles_cons, List.mem_append] at hx
      rw [hierarchyReachableFiles_cons, List.mem_append]
      rcases hx with hx | hx
      · rcases hg n x hx with hin | heq
        · exact Or.inl (Or.inl hin)
        · exact Or.inr heq
      · exact Or.inl (Or.inr hx)
    · rw [if_neg hk] at hx
      rw [hierarchyReachableFiles_cons, List.mem_append] at hx
      rw [hierarchyReachableFiles_cons, List.mem_append]
      rcases hx with hx | hx
      · exact Or.inl (Or.inl hx)
      · rcases ih x hx with hin | heq
        · exact Or.inl (Or.inr hin)
        · exact Or.inr heq

theorem reach_addToHierarchy_subset :
    ∀ (segs : List String) (h : TagHierarchy) (file x : TFile),
      x ∈ hierarchyReachableFiles (addToHierarchy h segs file) →
        x ∈ hierarchyReachableFiles h ∨ x = file := by
  intro segs
  induction segs with
  | nil => exact fun h file x hx => Or.inl hx
  | cons s srest ih =>
    intro h file x hx
    cases srest with
    | nil =>
      refine reach_modifyKey_subset s _ file ?_ h x hx
      intro n y hy
      obtain ⟨fs, cs⟩ := n
      simp only [TagNode.files, TagNode.children] at hy
      rw [nodeReachableFiles_mk, List.mem_append] at hy
      rw [nodeReachableFiles_mk, List.mem_append]
      rcases hy with hy | hy
      · rcases mem_fileSetAdd.mp hy with hin | heq
        · exact Or.inl (Or.inl hin)
        · exact Or.inr heq
      · exact Or.inl (Or.inr hy)
    | cons s2 ss =>
      refine reach_modifyKey_subset s _ file ?_ h x hx
      intro n y hy
      obtain ⟨fs, cs⟩ := n
      simp only [TagNode.files, TagNode.children] at hy
      rw [nodeReachableFiles_mk, List.mem_append] at hy
      rw [nodeReachableFiles_mk, List.mem_append]
      rcases hy with hy | hy
      · exact Or.inl (Or.inl hy)
      · rcases ih cs file y hy with hin | heq
        · exact Or.inl (Or.inr hin)
        · exact Or.inr heq

theorem reach_foldl_tags_subset (file : TFile) :
    ∀ (tags : List String) (h : TagHierarchy) (x : TFile),
      x ∈ hierarchyReachableFiles
          (tags.foldl (fun h tg => addToHierarchy h (jsSplit tg (fun c => c = '/')) file) h) →
        x ∈ hierarchyReachableFiles h ∨ x = file := by
  intro tags
  induction tags with
  | nil => exact fun h x hx => Or.inl hx
  | cons tg tgs ih =>
    intro h x hx
    rcases ih _ x hx with hin | heq
    · exact reach_addToHierarchy_subset _ h file x hin
    · exact Or.inr heq

theorem reach_buildStep_subset (mc : MetadataCache) (file : TFile) :
    ∀ (h : TagHierarchy) (x : TFile),
      x ∈ hierarchyReachableFiles (buildStep mc h file) →
        x ∈ hierarchyReachableFiles h ∨ x = file := by
  intro h x hx
  unfold buildStep at hx
  cases hmc : mc file.path with
  | none =>
    rw [hmc, modifyKey_untagged_eq_addToHierarchy] at hx
    exact reach_addToHierarchy_subset ["untagged"] h file x hx
  | some fileCache =>
    rw [hmc] at hx
    by_cases htags : gatherTagsFromCache fileCache = []
    · simp only [htags, if_pos rfl] at hx
      rw [modifyKey_untagged_eq_addToHierarchy] at hx
      exact reach_addToHierarchy_subset ["untagged"] h file x hx
    · simp only [if_neg htags] at hx
      exact reach_foldl_tags_subset file _ h x hx

theorem reach_foldl_files_subset (mc : MetadataCache) :
    ∀ (files : List TFile) (h : TagHierarchy) (x : TFile),
      x ∈ hierarchyReachableFiles (files.foldl (buildStep mc) h) →
        x ∈ hierarchyReachableFiles h ∨ x ∈ files := by
  intro files
  induction files with
  | nil => exact fun h x hx => Or.inl hx
  | cons f fs ih =>
    intro h x hx
    rcases ih _ x hx with hin | hmem
    · rcases reach_buildStep_subset mc f h x hin with hin' | heq
      · exact Or.inl hin'
      · exact Or.inr (heq ▸ List.mem_cons_self f fs)
    · exact Or.inr (List.mem_cons_of_mem f hmem)

/-- C5: `buildTagHierarchy` places every document whose extracted tag set is
empty (no snapshot, or a snapshot gathering no tags) into the root-level
`"untagged"` bucket; inserts every other document at the leaf node of each
of its `"/"`-split tags; and when every document of the corpus has a
snapshot with at least one tag, the documents reachable from the root are
exactly the corpus, so for a duplicate-free corpus the number of distinct
documents reachable from the root equals the corpus size. -/
theorem buildTagHierarchy_spec (vault : Vault) (mc : MetadataCache) :
    (∀ file ∈ vault.files,
      (mc file.path = none ∨
        ∃ fileCache, mc file.path = some fileCache ∧ gatherTagsFromCache fileCache = []) →
      ∃ n, nodeAtPath (buildTagHierarchy vault mc) ["untagged"] = some n ∧ file ∈ n.files)
    ∧ (∀ file ∈ vault.files, ∀ fileCache, mc file.path = some fileCache →
        ∀ tag ∈ gatherTagsFromCache fileCache,
          ∃ n, nodeAtPath (buildTagHierarchy vault mc)
              (jsSplit tag (fun c => c = '/')) = some n ∧ file ∈ n.files)
    ∧ ((∀ file ∈ vault.files,
          ∃ fileCache, mc file.path = some fileCache ∧ gatherTagsFromCache fileCache ≠ []) →
        (∀ x, x ∈ hierarchyReachableFiles (buildTagHierarchy vault mc) ↔ x ∈ vault.files)
        ∧ (vault.files.Nodup →
            (hierarchyReachableFiles (buildTagHierarchy vault mc)).toFinset.card
              = vault.files.length)) := by
  refine ⟨?_, ?_, ?_⟩
  · intro file hfile hempty
    rw [buildTagHierarchy_eq_foldl]
    exact (foldl_files_inserts mc vault.files [] file hfile).2 hempty
  · intro file hfile fileCache hc tag htag
    rw [buildTagHierarchy_eq_foldl]
    exact (foldl_files_inserts mc vault.files [] file hfile).1 fileCache hc tag htag
  · intro hall
    have hiff : ∀ x, x ∈ hierarchyReachableFiles (buildTagHierarchy vault mc)
        ↔ x ∈ vault.files := by
      intro x
      constructor
      · intro hx
        rw [buildTagHierarchy_eq_foldl] at hx
        rcases reach_foldl_files_subset mc vault.files [] x hx with hin | hmem
        · rw [hierarchyReachableFiles_nil] at hin
          exact absurd hin (List.not_mem_nil x)
        · exact hmem
      · intro hx
        obtain ⟨fileCache, hc, hne⟩ := hall x hx
        obtain ⟨tag, htag⟩ := List.exists_mem_of_ne_nil _ hne
        rw [buildTagHierarchy_eq_foldl]
        obtain ⟨n, hn, hmem⟩ :=
          (foldl_files_inserts mc vault.files [] x hx).1 fileCache hc tag htag
        exact nodeAtPath_files_subset_reach _ _ n hn x hmem
    refine ⟨hiff, ?_⟩
    intro hnodup
    have hset : (hierarchyReachableFiles (buildTagHierarchy vault mc)).toFinset
        = vault.files.toFinset := by
      apply Finset.ext
      intro x
      simp only [List.mem_toFinset]
      exact hiff x
    rw [hset, List.toFinset_card_of_nodup hnodup]

/-- Witness for `buildTagHierarchy_spec`: in the concrete two-file corpus
where both files carry tag `x`, the focus file is found at the leaf node of
the path `x`. -/
theorem buildTagHierarchy_spec_witness :
    ∃ n, nodeAtPath (buildTagHierarchy twoFileVault mcTagged)
        (jsSplit "x" (fun c => c = '/')) = some n ∧ fileA ∈ n.files := by
  have h := buildTagHierarchy_spec twoFileVault mcTagged
  exact h.2.1 fileA (by decide) taggedCache rfl "x" (by decide)

end TagTactician
